import Mathlib

/-!
Shallow embedding of `rust_wordle` (src/src/main.rs), a terminal Wordle clone.

Modelling conventions:
* Strings are lists of ASCII byte values (`List Nat`).  The Rust code indexes
  `input.as_bytes()[i] as char` throughout, so the byte level is the faithful
  one; all words that reach the evaluator are ASCII (dictionary words are
  filtered to ASCII lowercase letters), so byte length and char count agree
  on the relevant domain.
* `HashMap` tables with `entry(..).or_insert(..)` become total functions
  (default-0 counters) resp. `Nat → Option Nat` maps with an `or_insert`
  combinator.
* The `correctness` map, keyed by position `i as u8`, becomes a positional
  list of marks: the game fixes the word length to 5 < 256, so the `u8` cast
  never wraps.
* The rand crate function `SliceRandom::choose` (external) is modelled by its
  documented contract: `None` exactly on an empty slice, otherwise some
  element, here taken at an arbitrary index supplied as a `rng` parameter.
* The Rust functions `str::trim` / `to_lowercase` are modelled at the ASCII level
  (whitespace bytes 9–13 and 32; lowercasing maps 65–90 to 97–122).
-/

/-- A word/string as a list of ASCII byte values. -/
abbrev Word := List Nat

/-- Correctness of a letter used in a position (enum `Correctness`). -/
inductive Correctness where
  /-- The correct letter is in the correct position. -/
  | Correct
  /-- A correct letter is in an incorrect position. -/
  | CorrectLetter
  /-- An incorrect (and unused) letter is used in an incorrect position. -/
  | Incorrect
deriving DecidableEq, Repr

/-- Result of the game that was played (enum `GameResult`). -/
inductive GameResult where
  /-- The player won. -/
  | Success
  /-- The player lost. -/
  | Failure
deriving DecidableEq, Repr

/-- Wordle configuration (struct `Configuration`). -/
structure Configuration where
  /-- Number of guess tries before the game is over. -/
  guess_tries : Nat
  /-- Number of letters in the word to be guessed. -/
  guess_letters : Nat

/-- The configuration instantiated in `wordle()`: 6 tries, 5 letters. -/
def config : Configuration := ⟨6, 5⟩

/-- The Rust byte test `is_ascii_uppercase`: byte in 65..=90. -/
def isAsciiUpper (b : Nat) : Bool := 65 ≤ b && b ≤ 90

/-- ASCII lowercase letter: byte in 97..=122. -/
def isAsciiLower (b : Nat) : Bool := 97 ≤ b && b ≤ 122

/-- `char::is_ascii_alphabetic` at the byte level. -/
def is_ascii_alphabetic (b : Nat) : Bool := isAsciiUpper b || isAsciiLower b

/-- `str::to_lowercase` on one ASCII byte. -/
def to_lowercase_byte (b : Nat) : Nat := if isAsciiUpper b then b + 32 else b

/-- `str::to_lowercase` on a word (ASCII level). -/
def to_lowercase (w : Word) : Word := w.map to_lowercase_byte

/-- ASCII whitespace bytes removed by `str::trim` (Unicode White_Space
restricted to ASCII: tab, LF, VT, FF, CR, space). -/
def isWhitespaceByte (b : Nat) : Bool :=
  b == 9 || b == 10 || b == 11 || b == 12 || b == 13 || b == 32

/-- `str::trim`: strip leading and trailing whitespace. -/
def trim (w : Word) : Word :=
  ((w.dropWhile isWhitespaceByte).reverse.dropWhile isWhitespaceByte).reverse

/-- Line 92: `input.trim().to_lowercase()` applied to a raw input line. -/
def processInput (raw : Word) : Word := to_lowercase (trim raw)

/-- `sanitize_word` (lines 197–203): trim, lowercase, keep ASCII letters. -/
def sanitize_word (word : Word) : Word :=
  (to_lowercase (trim word)).filter is_ascii_alphabetic

/-- `words_list` (lines 205–212): split the corpus on the newline byte 10, skip 2 header
lines, sanitize each line, keep words of exactly `guess_letters` letters. -/
def words_list (all_words : Word) (cfg : Configuration) : List Word :=
  (((all_words.splitOn 10).drop 2).map sanitize_word).filter
    (fun line => line.length == cfg.guess_letters)

/-- Contract of `rand::seq::SliceRandom::choose`: `none` iff the slice is
empty, otherwise some element of the slice (the rng is abstracted into an
arbitrary index). -/
def chooseRandom (l : List Word) (rng : Nat) : Option Word :=
  l.get? (rng % l.length)

/-- Bump a default-0 counter table at key `b`
(`*letter_count.entry(b).or_insert(0) += 1`). -/
def bump (f : Nat → Nat) (b : Nat) : Nat → Nat :=
  fun c => if c = b then f c + 1 else f c

/-- First marking pass (lines 117–126): walking the zipped guess/target
positions left to right, mark `Correct` where the letters agree, bumping the
per-guess `letter_count` for that letter; other positions stay unmarked. -/
def markCorrect : List (Nat × Nat) → (Nat → Nat) →
    List (Option Correctness) × (Nat → Nat)
  | [], letter_count => ([], letter_count)
  | (letter, t) :: rest, letter_count =>
    if letter = t then
      let r := markCorrect rest (bump letter_count letter)
      (some Correctness.Correct :: r.1, r.2)
    else
      let r := markCorrect rest letter_count
      (none :: r.1, r.2)

/-- Second marking pass (lines 128–154): each position carries its guess
letter, the target letter at that position, and the mark left by the first
pass; `target_word.count letter` is the value the `target_letter_count`
table holds for every guessed letter (inserted at lines 109–115). -/
def markRest (target_word : Word) :
    List ((Nat × Nat) × Option Correctness) → (Nat → Nat) → List Correctness
  | [], _ => []
  | ((letter, t), m) :: rest, letter_count =>
    if target_word.contains letter then
      if letter_count letter < target_word.count letter ∧ letter ≠ t then
        m.getD Correctness.CorrectLetter ::
          markRest target_word rest (bump letter_count letter)
      else
        m.getD Correctness.Incorrect :: markRest target_word rest letter_count
    else
      m.getD Correctness.Incorrect :: markRest target_word rest letter_count

/-- The per-guess evaluation of `wordle()` (lines 108–168): first pass marks
exact matches, second pass marks remaining letters, the final display pass
reads each position's mark (defaulting to `Incorrect`, which never fires
because pass two fills every position). -/
def wordle_eval (input target_word : Word) : List Correctness :=
  let pairs := input.zip target_word
  let p1 := markCorrect pairs (fun _ => 0)
  markRest target_word (pairs.zip p1.1) p1.2

/-- The spec's canonical first pass (§4.2 step 1), written from the spec's
words: each exact match consumes one occurrence of that letter from the
target's available pool. -/
def specFirstPool : List (Nat × Nat) → (Nat → Nat) → (Nat → Nat)
  | [], pool => pool
  | (g, t) :: rest, pool =>
    if g = t then
      specFirstPool rest (fun c => if c = g then pool c - 1 else pool c)
    else
      specFirstPool rest pool

/-- The spec's canonical second pass (§4.2 step 2), written from the spec's
words: scanning positions left to right, a position not already `Correct`
is marked `PresentElsewhere` (= `CorrectLetter`) when the letter's remaining
unconsumed occurrence count is positive (decrementing it), `Absent`
(= `Incorrect`) otherwise. -/
def specSecond : List (Nat × Nat) → (Nat → Nat) → List Correctness
  | [], _ => []
  | (g, t) :: rest, pool =>
    if g = t then
      Correctness.Correct :: specSecond rest pool
    else if 0 < pool g then
      Correctness.CorrectLetter ::
        specSecond rest (fun c => if c = g then pool c - 1 else pool c)
    else
      Correctness.Incorrect :: specSecond rest pool

/-- The spec's canonical two-pass reference evaluator (§4.2), written from
the spec's words: the pool starts as the target's per-letter occurrence
counts, the first pass consumes exact matches, the second pass classifies
the remaining positions. -/
def spec_eval (guess target : Word) : List Correctness :=
  let pairs := guess.zip target
  specSecond pairs (specFirstPool pairs (fun c => target.count c))

/-- `HashMap::entry(k).or_insert(v)` on a `Nat → Option Nat` map: keep the
present value, insert `v` when absent. -/
def or_insertMap (m : Nat → Option Nat) (k v : Nat) : Nat → Option Nat :=
  fun c => if c = k then some ((m k).getD v) else m c

/-- Lines 108–115: for each letter of the accepted guess, insert the letter's
occurrence count in the target word into the persistent
`target_letter_count` table (first write wins, and every write carries the
same value for a fixed target). -/
def record_target_counts (tlc : Nat → Option Nat) (input target_word : Word) :
    Nat → Option Nat :=
  input.foldl (fun m letter => or_insertMap m letter (target_word.count letter)) tlc

/-- How a run of the game loop ends: either the `while` loop finishes and
`result` is inspected, or the supplied input lines run out (the real
program would block/panic reading stdin). -/
inductive GameOutcome where
  | finished : GameResult → GameOutcome
  | outOfInput : GameOutcome
deriving DecidableEq, Repr

/-- The game loop of `wordle()` (lines 74–182) over a list of raw input
lines, returning how the game ended together with the evaluations rendered
for the accepted guesses (the transcript).  State threaded through the loop:
the persistent `target_letter_count` table and the `guesses` counter.  Each
iteration pre-increments `guesses`, trims/lowercases the line, refunds the
try (`guesses1 - 1`) on a length mismatch or an out-of-dictionary word, and
otherwise evaluates the guess, breaking with `Success` on an exact match;
`result` stays `Failure` when the loop exhausts the tries. -/
def gameLoop (cfg : Configuration) (possible_words : List Word)
    (target_word : Word) :
    List Word → (Nat → Option Nat) → Nat → GameOutcome × List (List Correctness)
  | [], _, guesses =>
    if guesses < cfg.guess_tries then (GameOutcome.outOfInput, [])
    else (GameOutcome.finished GameResult.Failure, [])
  | raw :: rest, tlc, guesses =>
    if guesses < cfg.guess_tries then
      let guesses1 := guesses + 1
      let input := processInput raw
      if input.length ≠ cfg.guess_letters then
        gameLoop cfg possible_words target_word rest tlc (guesses1 - 1)
      else if input ∉ possible_words then
        gameLoop cfg possible_words target_word rest tlc (guesses1 - 1)
      else
        let tlc1 := record_target_counts tlc input target_word
        let marks := wordle_eval input target_word
        if input = target_word then
          (GameOutcome.finished GameResult.Success, [marks])
        else
          let r := gameLoop cfg possible_words target_word rest tlc1 guesses1
          (r.1, marks :: r.2)
    else (GameOutcome.finished GameResult.Failure, [])

/-- Lines 184–190: the target word is revealed exactly when the loop
finished with `result = Failure`. -/
def game_over_reveals : GameOutcome → Bool
  | GameOutcome.finished GameResult.Failure => true
  | _ => false

/-- Number of exact-match positions carrying letter `c` in a zipped
guess/target list. -/
def matchCount : List (Nat × Nat) → Nat → Nat
  | [], _ => 0
  | (g, t) :: rest, c => (if g = t ∧ g = c then 1 else 0) + matchCount rest c

theorem zip_self_map {α β : Type} (l : List α) (f : α → β) :
    l.zip (l.map f) = l.map fun a => (a, f a) := by
  induction l with
  | nil => rfl
  | cons a l ih => simp [ih]

theorem markCorrect_fst (pairs : List (Nat × Nat)) (lc : Nat → Nat) :
    (markCorrect pairs lc).1 =
      pairs.map (fun p => if p.1 = p.2 then some Correctness.Correct else none) := by
  induction pairs generalizing lc with
  | nil => rfl
  | cons p rest ih =>
    obtain ⟨g, t⟩ := p
    by_cases h : g = t <;> simp [markCorrect, h, ih]

theorem markCorrect_snd (pairs : List (Nat × Nat)) (lc : Nat → Nat) (c : Nat) :
    (markCorrect pairs lc).2 c = lc c + matchCount pairs c := by
  induction pairs generalizing lc c with
  | nil => simp [markCorrect, matchCount]
  | cons p rest ih =>
    obtain ⟨g, t⟩ := p
    by_cases h : g = t
    · rw [show markCorrect ((g, t) :: rest) lc =
          (some Correctness.Correct :: (markCorrect rest (bump lc g)).1,
            (markCorrect rest (bump lc g)).2) by simp [markCorrect, h]]
      rw [ih, matchCount, bump]
      by_cases hc : c = g
      · rw [if_pos hc, if_pos ⟨h, hc.symm⟩]; omega
      · rw [if_neg hc, if_neg (fun hh => hc hh.2.symm)]; omega
    · rw [show markCorrect ((g, t) :: rest) lc =
          (none :: (markCorrect rest lc).1, (markCorrect rest lc).2) by
            simp [markCorrect, h]]
      rw [ih, matchCount, if_neg (fun hh => h hh.1)]; omega

theorem specFirstPool_eq (pairs : List (Nat × Nat)) (pool : Nat → Nat) (c : Nat) :
    specFirstPool pairs pool c = pool c - matchCount pairs c := by
  induction pairs generalizing pool c with
  | nil => simp [specFirstPool, matchCount]
  | cons p rest ih =>
    obtain ⟨g, t⟩ := p
    by_cases h : g = t
    · rw [show specFirstPool ((g, t) :: rest) pool =
          specFirstPool rest (fun c => if c = g then pool c - 1 else pool c) by
            simp [specFirstPool, h]]
      rw [ih, matchCount]
      by_cases hc : c = g
      · rw [if_pos hc, if_pos ⟨h, hc.symm⟩]; omega
      · rw [if_neg hc, if_neg (fun hh => hc hh.2.symm)]; omega
    · rw [show specFirstPool ((g, t) :: rest) pool = specFirstPool rest pool by
            simp [specFirstPool, h]]
      rw [ih, matchCount, if_neg (fun hh => h hh.1)]; omega

/-- The program's second pass agrees with the spec's second pass whenever
the pool held by the spec equals the target counts minus the program's
per-guess `letter_count`, with the first-pass marks sitting exactly at the
exact-match positions. -/
theorem markRest_eq_specSecond (target_word : Word) :
    ∀ (pairs : List (Nat × Nat)) (lc pool : Nat → Nat),
      (∀ c, pool c = target_word.count c - lc c) →
      markRest target_word
        (pairs.map fun p =>
          (p, if p.1 = p.2 then some Correctness.Correct else none))
        lc = specSecond pairs pool := by
  intro pairs
  induction pairs with
  | nil => intro lc pool _; rfl
  | cons p rest ih =>
    intro lc pool hinv
    obtain ⟨g, t⟩ := p
    rw [List.map_cons]
    by_cases hgt : g = t
    · subst hgt
      rw [show (if ((g, g) : Nat × Nat).1 = ((g, g) : Nat × Nat).2
            then some Correctness.Correct else none) =
          some Correctness.Correct by simp]
      rw [show specSecond ((g, g) :: rest) pool =
          Correctness.Correct :: specSecond rest pool by simp [specSecond]]
      by_cases hmem : g ∈ target_word
      · rw [show markRest target_word (((g, g), some Correctness.Correct) ::
              rest.map fun p =>
                (p, if p.1 = p.2 then some Correctness.Correct else none)) lc =
            Correctness.Correct :: markRest target_word
              (rest.map fun p =>
                (p, if p.1 = p.2 then some Correctness.Correct else none)) lc by
              simp [markRest, hmem, Option.getD]]
        rw [ih lc pool hinv]
      · rw [show markRest target_word (((g, g), some Correctness.Correct) ::
              rest.map fun p =>
                (p, if p.1 = p.2 then some Correctness.Correct else none)) lc =
            Correctness.Correct :: markRest target_word
              (rest.map fun p =>
                (p, if p.1 = p.2 then some Correctness.Correct else none)) lc by
              simp [markRest, hmem, Option.getD]]
        rw [ih lc pool hinv]
    · rw [show (if ((g, t) : Nat × Nat).1 = ((g, t) : Nat × Nat).2
            then some Correctness.Correct else none) =
          (none : Option Correctness) by simp [hgt]]
      by_cases hlt : lc g < target_word.count g
      · have hpool : 0 < pool g := by rw [hinv g]; omega
        have hmem : g ∈ target_word := by
          have hcnt : 0 < target_word.count g := by omega
          exact List.count_pos_iff.mp hcnt
        rw [show specSecond ((g, t) :: rest) pool =
            Correctness.CorrectLetter ::
              specSecond rest (fun c => if c = g then pool c - 1 else pool c) by
            simp [specSecond, hgt, hpool]]
        rw [show markRest target_word (((g, t), none) ::
              rest.map fun p =>
                (p, if p.1 = p.2 then some Correctness.Correct else none)) lc =
            Correctness.CorrectLetter :: markRest target_word
              (rest.map fun p =>
                (p, if p.1 = p.2 then some Correctness.Correct else none))
              (bump lc g) by
            simp [markRest, hmem, hlt, hgt, Option.getD]]
        rw [ih (bump lc g) (fun c => if c = g then pool c - 1 else pool c)
          (by
            intro d
            show (if d = g then pool d - 1 else pool d) =
              target_word.count d - (if d = g then lc d + 1 else lc d)
            by_cases hd : d = g
            · subst hd; rw [if_pos rfl, if_pos rfl, hinv d]; omega
            · rw [if_neg hd, if_neg hd, hinv d])]
      · have hpool : ¬ 0 < pool g := by rw [hinv g]; omega
        rw [show specSecond ((g, t) :: rest) pool =
            Correctness.Incorrect :: specSecond rest pool by
          simp [specSecond, hgt, hpool]]
        by_cases hmem : g ∈ target_word
        · rw [show markRest target_word (((g, t), none) ::
                rest.map fun p =>
                  (p, if p.1 = p.2 then some Correctness.Correct else none)) lc =
              Correctness.Incorrect :: markRest target_word
                (rest.map fun p =>
                  (p, if p.1 = p.2 then some Correctness.Correct else none)) lc by
                simp [markRest, hmem, hlt, Option.getD]]
          rw [ih lc pool hinv]
        · rw [show markRest target_word (((g, t), none) ::
                rest.map fun p =>
                  (p, if p.1 = p.2 then some Correctness.Correct else none)) lc =
              Correctness.Incorrect :: markRest target_word
                (rest.map fun p =>
                  (p, if p.1 = p.2 then some Correctness.Correct else none)) lc by
                simp [markRest, hmem, Option.getD]]
          rw [ih lc pool hinv]

/-- The program's per-guess evaluation computes exactly the spec's canonical
two-pass reference marking. -/
theorem wordle_eval_eq_spec_eval (input target_word : Word) :
    wordle_eval input target_word = spec_eval input target_word := by
  show markRest target_word
      ((input.zip target_word).zip
        (markCorrect (input.zip target_word) (fun _ => 0)).1)
      (markCorrect (input.zip target_word) (fun _ => 0)).2 =
    specSecond (input.zip target_word)
      (specFirstPool (input.zip target_word) (fun c => target_word.count c))
  rw [markCorrect_fst, zip_self_map]
  rw [show (markCorrect (input.zip target_word) (fun _ => 0)).2 =
      fun c => matchCount (input.zip target_word) c by
    funext c; rw [markCorrect_snd]; omega]
  exact markRest_eq_specSecond target_word (input.zip target_word) _ _
    (fun c => by rw [specFirstPool_eq])

/-- The word "lilac" as ASCII bytes. -/
def wLilac : Word := [108, 105, 108, 97, 99]

/-- The word "llama" as ASCII bytes. -/
def wLlama : Word := [108, 108, 97, 109, 97]

/-- The word "bumps" as ASCII bytes (shares no letter with "lilac"). -/
def wBumps : Word := [98, 117, 109, 112, 115]

/-- A sample corpus: two header lines followed by the line "lilac". -/
def sampleCorpus : Word := [10, 10] ++ wLilac

/-- The empty `target_letter_count` table the game starts with. -/
def tlc0 : Nat → Option Nat := fun _ => none

/-- C1: for every target word and guess of the same length over lowercase
ASCII letters, the program's per-position marking equals the marking of the
spec's canonical two-pass reference algorithm. -/
theorem wordle_matches_canonical_two_pass (input target_word : Word)
    (hlen : input.length = target_word.length)
    (hguess : ∀ b ∈ input, isAsciiLower b = true)
    (htarget : ∀ b ∈ target_word, isAsciiLower b = true) :
    wordle_eval input target_word = spec_eval input target_word :=
  wordle_eval_eq_spec_eval input target_word

theorem wordle_matches_canonical_two_pass_witness :
    wordle_eval wLlama wLilac = spec_eval wLlama wLilac :=
  wordle_matches_canonical_two_pass wLlama wLilac (by decide) (by decide)
    (by decide)

/-- C2 counterexample: for target "lilac" and guess "llama" the evaluator
does not mark position 1 `Absent`; the claimed overall marking
(Correct, Absent, PresentElsewhere, Absent, Absent) differs from what the
evaluator produces, because "lilac" contains a second letter l. -/
theorem llama_lilac_position1_not_absent :
    wordle_eval wLlama wLilac ≠
      [Correctness.Correct, Correctness.Incorrect, Correctness.CorrectLetter,
        Correctness.Incorrect, Correctness.Incorrect] := by decide

/-- C2 amended: for target "lilac" and guess "llama" the evaluator marks
position 0 `Correct`; position 1 `CorrectLetter` (a second l remains in
the target at position 2, so the l is present elsewhere); position 2
`CorrectLetter`; position 3 `Incorrect`; and position 4 `Incorrect`
because the target single letter a was already consumed by the
`CorrectLetter` mark at position 2. -/
theorem llama_lilac_marking :
    wordle_eval wLlama wLilac =
      [Correctness.Correct, Correctness.CorrectLetter, Correctness.CorrectLetter,
        Correctness.Incorrect, Correctness.Incorrect] := by decide

theorem markRest_all_correct (target_word : Word) :
    ∀ (l : List Nat) (lc : Nat → Nat),
      markRest target_word (l.map fun a => ((a, a), some Correctness.Correct)) lc =
        List.replicate l.length Correctness.Correct := by
  intro l
  induction l with
  | nil => intro lc; rfl
  | cons a l ih =>
    intro lc
    rw [List.map_cons]
    by_cases hmem : a ∈ target_word
    · rw [show markRest target_word (((a, a), some Correctness.Correct) ::
            l.map fun a => ((a, a), some Correctness.Correct)) lc =
          Correctness.Correct :: markRest target_word
            (l.map fun a => ((a, a), some Correctness.Correct)) lc by
          simp [markRest, hmem, Option.getD]]
      rw [ih lc, List.length_cons, List.replicate_succ]
    · rw [show markRest target_word (((a, a), some Correctness.Correct) ::
            l.map fun a => ((a, a), some Correctness.Correct)) lc =
          Correctness.Correct :: markRest target_word
            (l.map fun a => ((a, a), some Correctness.Correct)) lc by
          simp [markRest, hmem, Option.getD]]
      rw [ih lc, List.length_cons, List.replicate_succ]

theorem zip_self_pairs (l : List Nat) : l.zip l = l.map fun a => (a, a) := by
  induction l with
  | nil => rfl
  | cons a l ih => simp [ih]

/-- C6: a guess equal to the target at every position is marked all
`Correct`. -/
theorem exact_guess_all_correct (target_word : Word) :
    wordle_eval target_word target_word =
      List.replicate target_word.length Correctness.Correct := by
  show markRest target_word
      ((target_word.zip target_word).zip
        (markCorrect (target_word.zip target_word) (fun _ => 0)).1)
      (markCorrect (target_word.zip target_word) (fun _ => 0)).2 =
    List.replicate target_word.length Correctness.Correct
  rw [markCorrect_fst, zip_self_map, zip_self_pairs, List.map_map]
  rw [show ((fun p : Nat × Nat =>
        (p, if p.1 = p.2 then some Correctness.Correct else none)) ∘
        fun a : Nat => (a, a)) =
      (fun a : Nat => ((a, a), some Correctness.Correct)) by
    funext a; simp]
  rw [markRest_all_correct]

theorem markRest_all_absent (target_word : Word) :
    ∀ (pairs : List (Nat × Nat)) (lc : Nat → Nat),
      (∀ p ∈ pairs, p.1 ∉ target_word ∧ p.1 ≠ p.2) →
      markRest target_word
        (pairs.map fun p =>
          (p, if p.1 = p.2 then some Correctness.Correct else none)) lc =
        List.replicate pairs.length Correctness.Incorrect := by
  intro pairs
  induction pairs with
  | nil => intro lc _; rfl
  | cons p rest ih =>
    intro lc hall
    obtain ⟨g, t⟩ := p
    obtain ⟨hmem, hne⟩ := hall (g, t) (List.mem_cons_self _ _)
    rw [List.map_cons]
    rw [show (if ((g, t) : Nat × Nat).1 = ((g, t) : Nat × Nat).2
          then some Correctness.Correct else none) =
        (none : Option Correctness) by simp [hne]]
    rw [show markRest target_word (((g, t), none) ::
          rest.map fun p =>
            (p, if p.1 = p.2 then some Correctness.Correct else none)) lc =
        Correctness.Incorrect :: markRest target_word
          (rest.map fun p =>
            (p, if p.1 = p.2 then some Correctness.Correct else none)) lc by
        simp [markRest, hmem, Option.getD]]
    rw [ih lc (fun q hq => hall q (List.mem_cons_of_mem _ hq)),
      List.length_cons, List.replicate_succ]

/-- C7: a guess sharing no letter with the target is marked all
`Incorrect`. -/
theorem disjoint_guess_all_incorrect (input target_word : Word)
    (hlen : input.length = target_word.length)
    (hdisj : ∀ b ∈ input, b ∉ target_word) :
    wordle_eval input target_word =
      List.replicate input.length Correctness.Incorrect := by
  show markRest target_word
      ((input.zip target_word).zip
        (markCorrect (input.zip target_word) (fun _ => 0)).1)
      (markCorrect (input.zip target_word) (fun _ => 0)).2 =
    List.replicate input.length Correctness.Incorrect
  rw [markCorrect_fst, zip_self_map]
  rw [markRest_all_absent target_word (input.zip target_word) _
    (by
      intro p hp
      have hmem := List.of_mem_zip hp
      refine ⟨hdisj p.1 hmem.1, ?_⟩
      intro he
      exact hdisj p.1 hmem.1 (he ▸ hmem.2))]
  rw [List.length_zip, hlen, Nat.min_self]

theorem disjoint_guess_all_incorrect_witness :
    wordle_eval wBumps wLilac =
      List.replicate wBumps.length Correctness.Incorrect :=
  disjoint_guess_all_incorrect wBumps wLilac (by decide) (by decide)

theorem matchCount_zip_le (c : Nat) :
    ∀ (gs ts : List Nat), matchCount (gs.zip ts) c ≤ ts.count c := by
  intro gs
  induction gs with
  | nil => intro ts; simp [matchCount]
  | cons g gs ih =>
    intro ts
    cases ts with
    | nil => simp [matchCount]
    | cons t ts =>
      rw [List.zip_cons_cons, matchCount, List.count_cons]
      simp only [beq_iff_eq]
      have hrest := ih ts
      split <;> split <;> omega

theorem specSecond_countP (c : Nat) :
    ∀ (pairs : List (Nat × Nat)) (pool : Nat → Nat),
      ((pairs.zip (specSecond pairs pool)).countP
        (fun q => decide (q.1.1 = c ∧
          (q.2 = Correctness.Correct ∨ q.2 = Correctness.CorrectLetter)))) ≤
        matchCount pairs c + pool c := by
  intro pairs
  induction pairs with
  | nil => intro pool; simp [specSecond, matchCount]
  | cons p rest ih =>
    intro pool
    obtain ⟨g, t⟩ := p
    by_cases hgt : g = t
    · subst hgt
      rw [show specSecond ((g, g) :: rest) pool =
          Correctness.Correct :: specSecond rest pool by simp [specSecond]]
      rw [List.zip_cons_cons, List.countP_cons]
      rw [show matchCount ((g, g) :: rest) c =
          (if g = g ∧ g = c then 1 else 0) + matchCount rest c from rfl]
      have hrest := ih pool
      by_cases hgc : g = c <;> simp [hgc] at hrest ⊢ <;> omega
    · have hmc : matchCount ((g, t) :: rest) c = 0 + matchCount rest c := by
        rw [matchCount, if_neg (fun hh => hgt hh.1)]
      by_cases hpool : 0 < pool g
      · rw [show specSecond ((g, t) :: rest) pool =
            Correctness.CorrectLetter ::
              specSecond rest (fun d => if d = g then pool d - 1 else pool d) by
            simp [specSecond, hgt, hpool]]
        rw [List.zip_cons_cons, List.countP_cons, hmc]
        have hrest := ih (fun d => if d = g then pool d - 1 else pool d)
        by_cases hgc : g = c
        · subst hgc
          simp at hrest ⊢
          omega
        · simp [hgc, Ne.symm hgc] at hrest ⊢
          omega
      · rw [show specSecond ((g, t) :: rest) pool =
            Correctness.Incorrect :: specSecond rest pool by
            simp [specSecond, hgt, hpool]]
        rw [List.zip_cons_cons, List.countP_cons, hmc]
        have hrest := ih pool
        simp at hrest ⊢
        omega

theorem countP_zip_fst (c : Nat) :
    ∀ (gs ts : List Nat) (marks : List Correctness), gs.length = ts.length →
      (gs.zip marks).countP
        (fun q => decide (q.1 = c ∧
          (q.2 = Correctness.Correct ∨ q.2 = Correctness.CorrectLetter))) =
      ((gs.zip ts).zip marks).countP
        (fun q => decide (q.1.1 = c ∧
          (q.2 = Correctness.Correct ∨ q.2 = Correctness.CorrectLetter))) := by
  intro gs
  induction gs with
  | nil => intro ts marks h; simp
  | cons g gs ih =>
    intro ts marks h
    cases ts with
    | nil => simp at h
    | cons t ts =>
      cases marks with
      | nil => simp
      | cons m ms =>
        rw [List.zip_cons_cons, List.zip_cons_cons, List.zip_cons_cons,
          List.countP_cons, List.countP_cons]
        rw [ih ts ms (by simpa using h)]

/-- C5: for every letter c, the number of positions marked `Correct` or
`CorrectLetter` whose guessed letter is c never exceeds the number of
occurrences of c in the target word. -/
theorem marks_bounded_by_target_count (input target_word : Word) (c : Nat)
    (hlen : input.length = target_word.length) :
    (input.zip (wordle_eval input target_word)).countP
      (fun q => decide (q.1 = c ∧
        (q.2 = Correctness.Correct ∨ q.2 = Correctness.CorrectLetter))) ≤
      target_word.count c := by
  rw [wordle_eval_eq_spec_eval]
  rw [show spec_eval input target_word =
      specSecond (input.zip target_word)
        (specFirstPool (input.zip target_word) (fun d => target_word.count d))
      from rfl]
  rw [countP_zip_fst c input target_word _ hlen]
  have h1 := specSecond_countP c (input.zip target_word)
    (specFirstPool (input.zip target_word) (fun d => target_word.count d))
  have h2 := specFirstPool_eq (input.zip target_word)
    (fun d => target_word.count d) c
  have h3 := matchCount_zip_le c input target_word
  simp only [] at h2
  omega

theorem marks_bounded_by_target_count_witness :
    (wLlama.zip (wordle_eval wLlama wLilac)).countP
      (fun q => decide (q.1 = 108 ∧
        (q.2 = Correctness.Correct ∨ q.2 = Correctness.CorrectLetter))) ≤
      wLilac.count 108 :=
  marks_bounded_by_target_count wLlama wLilac 108 (by decide)

theorem sanitize_word_lower (w : Word) (b : Nat) (hb : b ∈ sanitize_word w) :
    isAsciiLower b = true := by
  rw [sanitize_word, List.mem_filter] at hb
  obtain ⟨hmem, halpha⟩ := hb
  rw [to_lowercase, List.mem_map] at hmem
  obtain ⟨a, -, hab⟩ := hmem
  simp only [to_lowercase_byte, is_ascii_alphabetic, isAsciiUpper, isAsciiLower,
    Bool.or_eq_true, Bool.and_eq_true, decide_eq_true_eq] at hab halpha ⊢
  split at hab <;> omega

theorem words_list_mem (all_words : Word) (w : Word)
    (hw : w ∈ words_list all_words config) :
    w.length = config.guess_letters ∧ ∀ b ∈ w, isAsciiLower b = true := by
  rw [words_list, List.mem_filter] at hw
  obtain ⟨hmem, hlen⟩ := hw
  rw [List.mem_map] at hmem
  obtain ⟨line, -, hline⟩ := hmem
  constructor
  · simpa using hlen
  · intro b hb
    exact sanitize_word_lower line b (hline ▸ hb)

/-- C4: every word of `words_list` has exactly `guess_letters` (5) letters
and consists only of lowercase ASCII letters; hence a target word chosen
from the list never has another length. -/
theorem words_list_fixed_length_lowercase (all_words : Word) :
    (∀ w ∈ words_list all_words config,
      w.length = config.guess_letters ∧ ∀ b ∈ w, isAsciiLower b = true) ∧
    (∀ rng tw, chooseRandom (words_list all_words config) rng = some tw →
      tw.length = config.guess_letters) := by
  refine ⟨fun w hw => words_list_mem all_words w hw, ?_⟩
  intro rng tw htw
  have hmem : tw ∈ words_list all_words config := by
    rw [chooseRandom] at htw
    exact List.get?_mem htw
  exact (words_list_mem all_words tw hmem).1

theorem words_list_fixed_length_lowercase_witness :
    wLilac.length = config.guess_letters ∧ ∀ b ∈ wLilac, isAsciiLower b = true :=
  (words_list_fixed_length_lowercase sampleCorpus).1 wLilac (by decide)

/-- C9: with an empty filtered word list, `choose` yields `none` (so the
`unwrap` at startup aborts before any round); with a non-empty list this
failure branch is unreachable. -/
theorem empty_words_list_choose_none (all_words : Word) (rng : Nat) :
    (words_list all_words config = [] →
      chooseRandom (words_list all_words config) rng = none) ∧
    (words_list all_words config ≠ [] →
      ∃ tw, chooseRandom (words_list all_words config) rng = some tw) := by
  constructor
  · intro h
    rw [h]
    rfl
  · intro h
    have hpos : 0 < (words_list all_words config).length := List.length_pos.mpr h
    have hlt : rng % (words_list all_words config).length <
        (words_list all_words config).length := Nat.mod_lt _ hpos
    rw [chooseRandom]
    exact ⟨_, List.get?_eq_get hlt⟩

theorem empty_words_list_choose_none_witness :
    ∃ tw, chooseRandom (words_list sampleCorpus config) 0 = some tw :=
  (empty_words_list_choose_none sampleCorpus 0).2 (by decide)

theorem gameLoop_out_of_tries (cfg : Configuration) (pw : List Word) (tw : Word)
    (inputs : List Word) (tlc : Nat → Option Nat) (guesses : Nat)
    (h : ¬ guesses < cfg.guess_tries) :
    gameLoop cfg pw tw inputs tlc guesses =
      (GameOutcome.finished GameResult.Failure, []) := by
  cases inputs with
  | nil => simp [gameLoop, h]
  | cons raw rest => simp [gameLoop, h]

/-- C3: an input line whose trimmed, lowercased form has the wrong length,
or contains a non-letter byte, or is not a dictionary word, leaves the whole
continuation of the game unchanged: same remaining tries, no marks
emitted, same target word and same `target_letter_count` table. -/
theorem invalid_guess_refunds_try (all_words target_word : Word)
    (tlc : Nat → Option Nat) (guesses : Nat) (raw : Word) (rest : List Word)
    (hbad : (processInput raw).length ≠ config.guess_letters ∨
      (∃ b ∈ processInput raw, is_ascii_alphabetic b = false) ∨
      processInput raw ∉ words_list all_words config) :
    gameLoop config (words_list all_words config) target_word (raw :: rest)
        tlc guesses =
      gameLoop config (words_list all_words config) target_word rest
        tlc guesses := by
  by_cases hg : guesses < config.guess_tries
  · by_cases hlen : (processInput raw).length = config.guess_letters
    · have hnot : processInput raw ∉ words_list all_words config := by
        rcases hbad with h | ⟨b, hb, hbad1⟩ | h
        · exact absurd hlen h
        · intro hmemw
          have hlow := (words_list_mem all_words _ hmemw).2 b hb
          rw [is_ascii_alphabetic, hlow] at hbad1
          simp at hbad1
        · exact h
      simp [gameLoop, hg, hlen, hnot]
    · simp [gameLoop, hg, hlen]
  · rw [gameLoop_out_of_tries config _ _ _ _ _ hg,
      gameLoop_out_of_tries config _ _ _ _ _ hg]

theorem invalid_guess_refunds_try_witness :
    gameLoop config (words_list sampleCorpus config) wLilac ([108] :: [])
        tlc0 0 =
      gameLoop config (words_list sampleCorpus config) wLilac [] tlc0 0 :=
  invalid_guess_refunds_try sampleCorpus wLilac tlc0 0 [108] []
    (Or.inl (by decide))

/-- C8: an accepted guess on the final allowed try (try number
`guess_tries`) that equals the target ends the game with `Success`, and
the game-over reveal of the target word is not printed. -/
theorem final_try_exact_match_succeeds (possible_words : List Word)
    (target_word : Word) (tlc : Nat → Option Nat) (raw : Word)
    (rest : List Word)
    (hlen : (processInput raw).length = config.guess_letters)
    (hmem : processInput raw ∈ possible_words)
    (heq : processInput raw = target_word) :
    (gameLoop config possible_words target_word (raw :: rest) tlc
        (config.guess_tries - 1)).1 =
      GameOutcome.finished GameResult.Success ∧
    game_over_reveals (gameLoop config possible_words target_word
        (raw :: rest) tlc (config.guess_tries - 1)).1 = false := by
  have h5 : config.guess_tries - 1 < config.guess_tries := by decide
  rw [heq] at hlen hmem
  constructor <;> simp [gameLoop, h5, hlen, hmem, heq, game_over_reveals]

theorem final_try_exact_match_succeeds_witness :
    (gameLoop config [wLilac] wLilac (wLilac :: []) tlc0
        (config.guess_tries - 1)).1 =
      GameOutcome.finished GameResult.Success ∧
    game_over_reveals (gameLoop config [wLilac] wLilac (wLilac :: []) tlc0
        (config.guess_tries - 1)).1 = false :=
  final_try_exact_match_succeeds [wLilac] wLilac tlc0 wLilac []
    (by decide) (by decide) (by decide)

theorem isWhitespaceByte_eq_false_of_large (b : Nat) (h : 33 ≤ b) :
    isWhitespaceByte b = false := by
  simp [isWhitespaceByte]
  omega

theorem to_lowercase_byte_idem (b : Nat) :
    to_lowercase_byte (to_lowercase_byte b) = to_lowercase_byte b := by
  unfold to_lowercase_byte
  by_cases h : isAsciiUpper b = true
  · rw [if_pos h]
    have hb : 65 ≤ b ∧ b ≤ 90 := by
      simpa [isAsciiUpper] using h
    have h2 : ¬ isAsciiUpper (b + 32) = true := by
      simp [isAsciiUpper]
      omega
    rw [if_neg h2]
  · rw [if_neg h, if_neg h]

theorem ws_comp : isWhitespaceByte ∘ to_lowercase_byte = isWhitespaceByte := by
  funext b
  show isWhitespaceByte (to_lowercase_byte b) = isWhitespaceByte b
  by_cases h : isAsciiUpper b = true
  · have hb : 65 ≤ b ∧ b ≤ 90 := by
      simpa [isAsciiUpper] using h
    rw [to_lowercase_byte, if_pos h]
    rw [isWhitespaceByte_eq_false_of_large (b + 32) (by omega),
      isWhitespaceByte_eq_false_of_large b (by omega)]
  · rw [to_lowercase_byte, if_neg h]

theorem trim_to_lowercase (w : Word) :
    trim (to_lowercase w) = to_lowercase (trim w) := by
  unfold trim to_lowercase
  rw [List.dropWhile_map, ws_comp, ← List.map_reverse, List.dropWhile_map,
    ws_comp, ← List.map_reverse]

theorem dropWhile_head_not (p : Nat → Bool) (l : List Nat) (b : Nat)
    (h : (l.dropWhile p).head? = some b) : p b = false := by
  induction l with
  | nil => simp at h
  | cons a l ih =>
    rw [List.dropWhile_cons] at h
    by_cases hp : p a
    · rw [if_pos hp] at h
      exact ih h
    · rw [if_neg hp] at h
      simp at h
      subst h
      exact Bool.eq_false_iff.mpr hp

theorem dropWhile_self_of_head (p : Nat → Bool) (l : List Nat)
    (h : ∀ b, l.head? = some b → p b = false) : l.dropWhile p = l := by
  cases l with
  | nil => rfl
  | cons a l =>
    have ha := h a rfl
    rw [List.dropWhile_cons, if_neg (by simp [ha])]

theorem trim_head_not (w : Word) (b : Nat) (h : (trim w).head? = some b) :
    isWhitespaceByte b = false := by
  obtain ⟨s, hs⟩ :=
    List.rdropWhile_prefix isWhitespaceByte (w.dropWhile isWhitespaceByte)
  apply dropWhile_head_not isWhitespaceByte w b
  rw [← hs, List.head?_append]
  have hh : (List.rdropWhile isWhitespaceByte
      (w.dropWhile isWhitespaceByte)).head? = some b := h
  rw [hh]
  rfl

theorem trim_trim (w : Word) : trim (trim w) = trim w := by
  have h1 : List.dropWhile isWhitespaceByte (trim w) = trim w :=
    dropWhile_self_of_head isWhitespaceByte (trim w) (trim_head_not w)
  show List.rdropWhile isWhitespaceByte
      (List.dropWhile isWhitespaceByte (trim w)) = trim w
  rw [h1]
  show List.rdropWhile isWhitespaceByte
      (List.rdropWhile isWhitespaceByte (w.dropWhile isWhitespaceByte)) =
    trim w
  rw [List.rdropWhile_idempotent]
  rfl

theorem to_lowercase_idem (w : Word) :
    to_lowercase (to_lowercase w) = to_lowercase w := by
  unfold to_lowercase
  rw [List.map_map, show to_lowercase_byte ∘ to_lowercase_byte =
    to_lowercase_byte from funext to_lowercase_byte_idem]

theorem processInput_idem (raw : Word) :
    processInput (processInput raw) = processInput raw := by
  unfold processInput
  rw [trim_to_lowercase, trim_trim, to_lowercase_idem]

/-- C10: a raw input line is trimmed and lowercased before any validation
or evaluation: feeding the raw line is indistinguishable from feeding its
normalized form, and when the normalized form is a dictionary word the
guess is accepted and evaluated (the transcript starts with its marks). -/
theorem input_normalized_before_validation (all_words target_word : Word)
    (tlc : Nat → Option Nat) (guesses : Nat) (raw : Word) (rest : List Word)
    (hmem : processInput raw ∈ words_list all_words config)
    (hg : guesses < config.guess_tries) :
    gameLoop config (words_list all_words config) target_word (raw :: rest)
        tlc guesses =
      gameLoop config (words_list all_words config) target_word
        (processInput raw :: rest) tlc guesses ∧
    ∃ tr, (gameLoop config (words_list all_words config) target_word
        (raw :: rest) tlc guesses).2 =
      wordle_eval (processInput raw) target_word :: tr := by
  have hlen : (processInput raw).length = config.guess_letters :=
    (words_list_mem all_words _ hmem).1
  constructor
  · simp only [gameLoop, processInput_idem]
  · by_cases heq : processInput raw = target_word
    · refine ⟨[], ?_⟩
      rw [heq] at hlen hmem
      simp [gameLoop, hg, hlen, hmem, heq]
    · refine ⟨(gameLoop config (words_list all_words config) target_word rest
        (record_target_counts tlc (processInput raw) target_word)
        (guesses + 1)).2, ?_⟩
      simp [gameLoop, hg, hlen, hmem, heq]

/-- The raw input line " LILAC " (with surrounding spaces and uppercase). -/
def wRawLilac : Word := [32, 76, 73, 76, 65, 67, 32]

theorem input_normalized_before_validation_witness :
    gameLoop config (words_list sampleCorpus config) wLilac (wRawLilac :: [])
        tlc0 0 =
      gameLoop config (words_list sampleCorpus config) wLilac
        (processInput wRawLilac :: []) tlc0 0 ∧
    ∃ tr, (gameLoop config (words_list sampleCorpus config) wLilac
        (wRawLilac :: []) tlc0 0).2 =
      wordle_eval (processInput wRawLilac) wLilac :: tr :=
  input_normalized_before_validation sampleCorpus wLilac tlc0 0 wRawLilac []
    (by decide) (by decide)
